import Mathlib

/-!
Verification of the impcache key-value cache facade.

This file shallowly embeds the core of the library:
key derivation (`ICache.make_key` in `service.py`), the JSON codec mixin
(`JsonSerializerMixin.loads` / `dumps`), the facade operations of `Cache`,
and the byte-level `RedisCacheRepository` operations, over an explicit
association-list model of the remote store.  The external collaborators
(the `orjson` codec and the Redis driver primitives) are modelled at the
interface boundary described in the design document: the codec over a
deep JSON value type (numbers as integers; string escaping restricted to
quote and backslash; UUID values carried as their canonical string), and
the store as a finite list of key/value/expiry entries.
-/

namespace Impcache

/-- A cache version, mirroring the Python annotation `int | str`. -/
inductive Version where
  | int (i : Int)
  | str (s : String)
deriving DecidableEq, Repr

/-- How a version is rendered inside an f-string, mirroring Python `str()`. -/
def versionStr : Version → String
  | .int i => toString i
  | .str s => s

/-- Constructor-time configuration of `ICache`: the defaults mirror
`def __init__(self, key_prefix: str = "cache", version: int | str = 1)`.
`keyPfx` models the `key_prefix` attribute. -/
structure CacheConfig where
  keyPfx : String := "cache"
  version : Version := .int 1
deriving DecidableEq, Repr

/-- Embedding of `ICache.make_key`: the override is used whenever it
`is not None`, otherwise the configured default, and the result is the
f-string `"{self.key_prefix}:{key_version}:{key}"`. -/
def makeKey (cfg : CacheConfig) (key : String) (version : Option Version) : String :=
  let keyVersion := match version with
    | some v => v
    | none => cfg.version
  cfg.keyPfx ++ ":" ++ versionStr keyVersion ++ ":" ++ key

/-- C1: key derivation is a pure deterministic function: `make_key` returns
`"{prefix}:{version or default}:{key}"`, identical arguments give identical
results, `make_key(k, None)` equals `make_key(k, default_version)`, and the
constructor defaults are prefix `"cache"` and version `1`. -/
theorem makeKey_formula_deterministic_defaults (cfg : CacheConfig) (k : String)
    (v : Option Version) :
    makeKey cfg k v
      = cfg.keyPfx ++ ":"
          ++ versionStr (match v with | some w => w | none => cfg.version) ++ ":" ++ k
    ∧ makeKey cfg k v = makeKey cfg k v
    ∧ makeKey cfg k none = makeKey cfg k (some cfg.version)
    ∧ ({} : CacheConfig).keyPfx = "cache"
    ∧ ({} : CacheConfig).version = .int 1 := by
  refine ⟨rfl, rfl, rfl, rfl, rfl⟩

/-- C10: any override that is not `None` is used verbatim in the derived key,
including the falsy values `0` and `""`; only `None` falls back to the
configured default, because the code tests `version is not None`. -/
theorem makeKey_falsy_override_used (cfg : CacheConfig) (k : String) (w : Version) :
    makeKey cfg k (some w) = cfg.keyPfx ++ ":" ++ versionStr w ++ ":" ++ k
    ∧ makeKey ({} : CacheConfig) k (some (.int 0)) = "cache:0:" ++ k
    ∧ makeKey ({} : CacheConfig) k (some (.str "")) = "cache::" ++ k
    ∧ makeKey ({} : CacheConfig) k none = "cache:1:" ++ k := by
  refine ⟨rfl, rfl, rfl, rfl⟩

/-! Logical values.  The Python alias is
`JSON = dict[str, JSON] | list[JSON] | str | int | float | bool | UUID | None`,
but callers can hand `dumps` any object, so the embedded value type also has a
constructor for an object with no JSON representation (`pdecimal`, standing for
`decimal.Decimal` and any other type `orjson` rejects with `TypeError`).
Numbers are modelled as integers (floating point is outside the shallow
embedding) and a `UUID` is carried as the character list of its canonical
string form. JSON-level strings are carried as character lists, modelling the
byte strings the codec produces and consumes. -/

inductive PyValue where
  | pnull
  | pbool (b : Bool)
  | pint (i : Int)
  | pstr (s : List Char)
  | puuid (u : List Char)
  | pdecimal (d : List Char)
  | plist (es : List PyValue)
  | pdict (ms : List (List Char × PyValue))

/-- The error taxonomy of `exceptions.py`: `JsonEncodeError` and
`JsonDecodeError`, both subclasses of `CacheError`.  Store/transport errors
never arise in the pure store model, so they have no constructor here. -/
inductive CacheError where
  | jsonEncodeError
  | jsonDecodeError
deriving DecidableEq, Repr

/-- JSON string escaping as the modelled encoder performs it: quote and
backslash are escaped, every other character passes through. -/
def escChar (c : Char) : List Char :=
  if c = '"' then ['\\', '"']
  else if c = '\\' then ['\\', '\\'] else [c]

/-- Escape a whole string body, character by character. -/
def escBody : List Char → List Char
  | [] => []
  | c :: t => escChar c ++ escBody t

/-- A rendered JSON string: quote, escaped body, quote. -/
def strChars (s : List Char) : List Char :=
  '"' :: (escBody s ++ ['"'])

/-- Decimal digit characters of a natural number, most significant first. -/
def natChars (n : Nat) : List Char :=
  if n = 0 then ['0']
  else ((Nat.digits 10 n).map (fun d => Char.ofNat (48 + d))).reverse

/-- Decimal rendering of an integer, as Python `str()` produces it. -/
def intChars (i : Int) : List Char :=
  (if i < 0 then ['-'] else []) ++ natChars i.natAbs

mutual

/-- Modelled from the spec: `orjson.dumps`, the compact encoder the facade
delegates to.  It returns `none` exactly where `orjson` raises `TypeError`
(a value with no JSON representation); a UUID is encoded as its canonical
string. -/
def renderVal : PyValue → Option (List Char)
  | .pnull => some ['n', 'u', 'l', 'l']
  | .pbool true => some ['t', 'r', 'u', 'e']
  | .pbool false => some ['f', 'a', 'l', 's', 'e']
  | .pint i => some (intChars i)
  | .pstr s => some (strChars s)
  | .puuid u => some (strChars u)
  | .pdecimal _ => none
  | .plist es => (renderItems es).map (fun body => '[' :: (body ++ [']']))
  | .pdict ms => (renderPairs ms).map (fun body => '{' :: (body ++ ['}']))

/-- Comma-separated rendering of array elements. -/
def renderItems : List PyValue → Option (List Char)
  | [] => some []
  | e :: t =>
    match renderVal e, renderItems t with
    | some be, some bt => some (if t.isEmpty then be else be ++ ',' :: bt)
    | _, _ => none

/-- Comma-separated rendering of object members, each `"key":value`. -/
def renderPairs : List (List Char × PyValue) → Option (List Char)
  | [] => some []
  | kv :: t =>
    match renderVal kv.2, renderPairs t with
    | some bv, some bt =>
      some (if t.isEmpty then strChars kv.1 ++ ':' :: bv
            else (strChars kv.1 ++ ':' :: bv) ++ ',' :: bt)
    | _, _ => none

end

mutual

/-- Whether a value contains, anywhere inside it, an object with no JSON
representation. -/
def hasUnsupported : PyValue → Bool
  | .pdecimal _ => true
  | .plist es => hasUnsupportedL es
  | .pdict ms => hasUnsupportedP ms
  | _ => false

/-- List form of `hasUnsupported`. -/
def hasUnsupportedL : List PyValue → Bool
  | [] => false
  | e :: t => hasUnsupported e || hasUnsupportedL t

/-- Member form of `hasUnsupported`. -/
def hasUnsupportedP : List (List Char × PyValue) → Bool
  | [] => false
  | kv :: t => hasUnsupported kv.2 || hasUnsupportedP t

end

mutual

/-- Whether a value contains no UUID anywhere inside it. -/
def noUuid : PyValue → Bool
  | .puuid _ => false
  | .plist es => noUuidL es
  | .pdict ms => noUuidP ms
  | _ => true

/-- List form of `noUuid`. -/
def noUuidL : List PyValue → Bool
  | [] => true
  | e :: t => noUuid e && noUuidL t

/-- Member form of `noUuid`. -/
def noUuidP : List (List Char × PyValue) → Bool
  | [] => true
  | kv :: t => noUuid kv.2 && noUuidP t

end

/-- Embedding of `JsonSerializerMixin.dumps`: delegate to the encoder and
translate its `TypeError` into `JsonEncodeError`. -/
def mixinDumps (json : PyValue) : Except CacheError (List Char) :=
  match renderVal json with
  | some result => .ok result
  | none => .error .jsonEncodeError

/-! Decoder.  `parseVal` is the modelled `orjson.loads`: a recursive-descent
parser over the character list, with a fuel argument making the recursion
structural; `orjsonLoads` supplies one unit of fuel per input character plus
one, which the round-trip development proves sufficient for every encoder
output. -/

/-- ASCII decimal digit test. -/
def isDigitCh (c : Char) : Bool := 48 ≤ c.toNat && c.toNat ≤ 57

/-- Split off the maximal leading run of digit characters. -/
def takeDigits : List Char → List Char × List Char
  | [] => ([], [])
  | c :: t =>
    if isDigitCh c then
      let p := takeDigits t
      (c :: p.1, p.2)
    else ([], c :: t)

/-- Numeric value of a big-endian digit-character run. -/
def digitsVal (ds : List Char) : Nat :=
  Nat.ofDigits 10 ((ds.map (fun c => c.toNat - 48)).reverse)

/-- Parse a nonempty digit run into a natural number, leaving the remainder. -/
def parseNat (cs : List Char) : Option (Nat × List Char) :=
  match takeDigits cs with
  | ([], _) => none
  | (ds, r) => some (digitsVal ds, r)

/-- Parse a string body after the opening quote, undoing the escaping of
quote and backslash, up to the closing quote. -/
def parseStrBody : List Char → Option (List Char × List Char)
  | [] => none
  | c :: t =>
    if c = '"' then some ([], t)
    else if c = '\\' then
      match t with
      | [] => none
      | e :: r =>
        if e = '"' then (parseStrBody r).map (fun p => ('"' :: p.1, p.2))
        else if e = '\\' then (parseStrBody r).map (fun p => ('\\' :: p.1, p.2))
        else none
    else (parseStrBody t).map (fun p => (c :: p.1, p.2))

/-- Parse one-or-more comma-separated array elements up to the closing `]`,
the element parser `p` being supplied by the caller. -/
def parseSeqItems (p : List Char → Option (PyValue × List Char)) :
    Nat → List Char → Option (List PyValue × List Char)
  | 0, _ => none
  | fuel + 1, cs =>
    match p cs with
    | none => none
    | some (v, r) =>
      match r with
      | ',' :: r' => (parseSeqItems p fuel r').map (fun q => (v :: q.1, q.2))
      | ']' :: r' => some ([v], r')
      | _ => none

/-- Parse one-or-more comma-separated object members up to the closing `}`. -/
def parseSeqPairs (p : List Char → Option (PyValue × List Char)) :
    Nat → List Char → Option (List (List Char × PyValue) × List Char)
  | 0, _ => none
  | fuel + 1, cs =>
    match cs with
    | '"' :: r =>
      match parseStrBody r with
      | none => none
      | some (k, r1) =>
        match r1 with
        | ':' :: r2 =>
          match p r2 with
          | none => none
          | some (v, r3) =>
            match r3 with
            | ',' :: r4 => (parseSeqPairs p fuel r4).map (fun q => ((k, v) :: q.1, q.2))
            | '}' :: r4 => some ([(k, v)], r4)
            | _ => none
        | _ => none
    | _ => none

/-- Parse one JSON value, dispatching on the first character. -/
def parseVal : Nat → List Char → Option (PyValue × List Char)
  | 0, _ => none
  | fuel + 1, cs =>
    match cs with
    | [] => none
    | c :: r =>
      if c = 'n' then
        match r with
        | 'u' :: 'l' :: 'l' :: r' => some (.pnull, r')
        | _ => none
      else if c = 't' then
        match r with
        | 'r' :: 'u' :: 'e' :: r' => some (.pbool true, r')
        | _ => none
      else if c = 'f' then
        match r with
        | 'a' :: 'l' :: 's' :: 'e' :: r' => some (.pbool false, r')
        | _ => none
      else if c = '"' then
        (parseStrBody r).map (fun p => (.pstr p.1, p.2))
      else if c = '[' then
        match r with
        | [] => none
        | r0 :: r' =>
          if r0 = ']' then some (.plist [], r')
          else (parseSeqItems (parseVal fuel) fuel (r0 :: r')).map
            (fun p => (.plist p.1, p.2))
      else if c = '{' then
        match r with
        | [] => none
        | r0 :: r' =>
          if r0 = '}' then some (.pdict [], r')
          else (parseSeqPairs (parseVal fuel) fuel (r0 :: r')).map
            (fun p => (.pdict p.1, p.2))
      else if c = '-' then
        (parseNat r).map (fun p => (PyValue.pint (-(p.1 : Int)), p.2))
      else if isDigitCh c then
        (parseNat (c :: r)).map (fun p => (PyValue.pint (p.1 : Int), p.2))
      else none

/-- Modelled from the spec: `orjson.loads`, the decoder the facade delegates
to.  A document is accepted when one value parses and consumes the whole
input; `none` is where `orjson` raises `JSONDecodeError`. -/
def orjsonLoads (payload : List Char) : Option PyValue :=
  match parseVal (payload.length + 1) payload with
  | some (v, []) => some v
  | _ => none

/-- A byte sequence is well-formed encoded JSON precisely when the modelled
decoder accepts it. -/
def wellFormedJson (payload : List Char) : Bool :=
  (orjsonLoads payload).isSome

/-- Embedding of `JsonSerializerMixin.loads`: delegate to the decoder and
translate its `JSONDecodeError` into `JsonDecodeError`. -/
def mixinLoads (payload : List Char) : Except CacheError PyValue :=
  match orjsonLoads payload with
  | some json => .ok json
  | none => .error .jsonDecodeError

/-! Store model.  The remote key-value store is a finite association list
from keys to (value bytes, expiry seconds), with at most one entry per key.
The Redis driver primitives the repository calls (`set` with `nx`, `mget`,
`delete`, `scan`) are modelled from the spec as pure functions on this
state. -/

/-- The remote store: key, value bytes, expiry seconds per entry. -/
abbrev Store := List (String × (List Char × Nat))

/-- The entry stored at a key, if any. -/
def storedAt : Store → String → Option (List Char × Nat)
  | [], _ => none
  | e :: t, k => if e.1 = k then some e.2 else storedAt t k

/-- The value bytes stored at a key, if any. -/
def storeGet (st : Store) (k : String) : Option (List Char) :=
  (storedAt st k).map Prod.fst

/-- Modelled from the spec: the driver's `session.set(name, value, ex, nx=True)`.
With `nx`, Redis replies `None` (no write happens) when the key exists and a
truthy reply after storing the value with its expiry otherwise. -/
def redisSetNx (st : Store) (k : String) (v : List Char) (ex : Nat) :
    Store × Option Unit :=
  match storedAt st k with
  | some _ => (st, none)
  | none => (st ++ [(k, (v, ex))], some ())

/-- Embedding of `RedisCacheRepository.set_nx`: delegate to the driver and
return `result is not None`. -/
def repoSetNx (st : Store) (k : String) (v : List Char) (ex : Nat) :
    Store × Bool :=
  let result := redisSetNx st k v ex
  (result.1, result.2.isSome)

/-- Modelled from the spec: the driver's `session.mget(keys)` — one positional
result per requested key, `None` where the key holds no value. -/
def redisMget (st : Store) (keys : List String) : List (Option (List Char)) :=
  keys.map (fun k => storeGet st k)

/-- Embedding of `RedisCacheRepository.get_many`: delegate to `mget`. -/
def repoGetMany (st : Store) (keys : List String) : List (Option (List Char)) :=
  redisMget st keys

/-- Modelled from the spec: the driver's `session.delete(*keys)` — remove the
named keys and reply with the number of keys that existed and were removed. -/
def redisDel (st : Store) (ks : List String) : Store × Nat :=
  (st.filter (fun e => decide (e.1 ∉ ks)),
   (st.filter (fun e => decide (e.1 ∈ ks))).length)

/-- Content of a glob character class up to the closing `]`. -/
def spanClass : List Char → Option (List Char × List Char)
  | [] => none
  | c :: t =>
    if c = ']' then some ([], t)
    else (spanClass t).map (fun q => (c :: q.1, q.2))

/-- Negation flag, content and remainder of a glob character class. -/
def classSpec (p : List Char) : Option (Bool × List Char × List Char) :=
  match p with
  | [] => none
  | c :: rest =>
    if c = '^' then (spanClass rest).map (fun q => (true, q.1, q.2))
    else (spanClass (c :: rest)).map (fun q => (false, q.1, q.2))

/-- Whether a character class body (`a`, `a-b` items) contains a character. -/
def classHas : List Char → Char → Bool
  | [], _ => false
  | a :: '-' :: b :: t, c =>
    (decide (min a b ≤ c) && decide (c ≤ max a b)) || classHas t c
  | a :: t, c => (a == c) || classHas t c

theorem spanClass_len : ∀ (p body rest : List Char),
    spanClass p = some (body, rest) → rest.length < p.length := by
  intro p
  induction p with
  | nil => intro body rest h; simp [spanClass] at h
  | cons c t ih =>
    intro body rest h
    rw [spanClass] at h
    by_cases hc : c = ']'
    · simp only [if_pos hc, Option.some.injEq, Prod.mk.injEq] at h
      rw [← h.2]
      simp
    · simp only [if_neg hc, Option.map_eq_some'] at h
      obtain ⟨q, hq, hqe⟩ := h
      have := ih q.1 q.2 (by rw [hq])
      rw [Prod.mk.injEq] at hqe
      rw [← hqe.2]
      simp only [List.length_cons]
      omega

theorem classSpec_len (p : List Char) (q : Bool × List Char × List Char)
    (h : classSpec p = some q) : q.2.2.length < p.length := by
  cases p with
  | nil => simp [classSpec] at h
  | cons c rest =>
    replace h : (if c = '^' then (spanClass rest).map (fun q => (true, q.1, q.2))
        else (spanClass (c :: rest)).map (fun q => (false, q.1, q.2))) = some q := h
    by_cases hc : c = '^'
    · rw [if_pos hc, Option.map_eq_some'] at h
      obtain ⟨w, hw, hq⟩ := h
      have := spanClass_len rest w.1 w.2 (by rw [hw])
      rw [← hq]
      simp only [List.length_cons]
      omega
    · rw [if_neg hc, Option.map_eq_some'] at h
      obtain ⟨w, hw, hq⟩ := h
      have := spanClass_len (c :: rest) w.1 w.2 (by rw [hw])
      rw [← hq]
      exact this

/-- Modelled from the spec: Redis glob matching (`stringmatchlen`): `?` one
character, `*` any run, `[set]` / `[^set]` / `[a-b]` one character against a
class, backslash escaping the next pattern character. -/
def globMatch : List Char → List Char → Bool
  | [], [] => true
  | [], _ :: _ => false
  | '*' :: p, [] => globMatch p []
  | '*' :: p, c :: s => globMatch p (c :: s) || globMatch ('*' :: p) s
  | '?' :: _, [] => false
  | '?' :: p, _ :: s => globMatch p s
  | '[' :: _, [] => false
  | '[' :: p, c :: s =>
    match hq : classSpec p with
    | none => false
    | some q => (classHas q.2.1 c != q.1) && globMatch q.2.2 s
  | '\\' :: e :: p, c :: s => (e == c) && globMatch p s
  | _ :: _, [] => false
  | a :: p, c :: s => (a == c) && globMatch p s
termination_by p s => p.length + s.length
decreasing_by
  all_goals simp only [List.length_cons]
  all_goals first
    | omega
    | (have hcs := classSpec_len _ _ hq; omega)

/-- Modelled from the spec: the driver's cursor-based `session.scan(cursor,
match, count)` over a snapshot of the key space: examine up to `count` keys
starting at the cursor, return those matching the pattern, and reply with
cursor `0` once the scan has wrapped back to its start. -/
def redisScan (snapshot : List String) (cursor : Nat) (pattern : String)
    (count : Nat) : Nat × List String :=
  (if cursor + count < snapshot.length then cursor + count else 0,
   ((snapshot.drop cursor).take count).filter
     (fun k => globMatch pattern.toList k.toList))

/-- The `while True` scan-and-delete loop of
`RedisCacheRepository.delete_pattern`, written with a fuel argument; the
correctness theorem shows `snapshot.length + 1` rounds always reach the
cursor-zero exit. -/
def dpLoop (snapshot : List String) (pattern : String) :
    Nat → Store → Nat → Nat → Store × Nat
  | 0, st, _, removedKeys => (st, removedKeys)
  | fuel + 1, st, cursor, removedKeys =>
    let step := redisScan snapshot cursor pattern 1000
    let delRes := if step.2.isEmpty then (st, 0) else redisDel st step.2
    if step.1 = 0 then (delRes.1, removedKeys + delRes.2)
    else dpLoop snapshot pattern fuel delRes.1 step.1 (removedKeys + delRes.2)

/-- Embedding of `RedisCacheRepository.delete_pattern`: `chunk_size = 1000`,
cursor starts at `0`, each nonempty batch is deleted immediately, the loop
stops when the cursor returns to `0`, and the total removed is returned. -/
def repoDeletePattern (st : Store) (pattern : String) : Store × Nat :=
  let snapshot := st.map (fun e => e.1)
  dpLoop snapshot pattern (snapshot.length + 1) st 0 0

/-! Cache facade operations (`Cache` in `service.py`).  Each derives keys
with `makeKey`, encodes with `mixinDumps` / decodes with `mixinLoads`, and
delegates to the repository.  For the write operations the repository is a
parameter, so the theorems can state that an encode failure returns before
any repository behavior is observable. -/

/-- Embedding of `Cache.set`: derive the key, encode the value, then hand
both to the repository's `set`. -/
def cacheSet (repoSet : String → List Char → Nat → Store → Store × Bool)
    (cfg : CacheConfig) (st : Store) (key : String) (value : PyValue)
    (expire : Nat) (version : Option Version) : Except CacheError (Store × Bool) :=
  match mixinDumps value with
  | .error e => .error e
  | .ok b => .ok (repoSet (makeKey cfg key version) b expire st)

/-- The encoding loop of `Cache.set_many`: each entry's key is derived with
the same version and its value encoded; the first encode failure aborts. -/
def encodeAll (cfg : CacheConfig) (version : Option Version) :
    List (String × PyValue) → Except CacheError (List (String × List Char))
  | [] => .ok []
  | (key, value) :: t =>
    match mixinDumps value with
    | .error e => .error e
    | .ok b => (encodeAll cfg version t).map (fun rest => (makeKey cfg key version, b) :: rest)

/-- Embedding of `Cache.set_many`: build the encoded mapping, then make the
single batch repository call. -/
def cacheSetMany (repoSetMany : List (String × List Char) → Nat → Store → Store × Bool)
    (cfg : CacheConfig) (st : Store) (data : List (String × PyValue))
    (expire : Nat) (version : Option Version) : Except CacheError (Store × Bool) :=
  match encodeAll cfg version data with
  | .error e => .error e
  | .ok pairs => .ok (repoSetMany pairs expire st)

/-- The decoding comprehension of `Cache.get_many`:
`[self.loads(value) if value is not None else None for value in data]`,
with the first decode failure propagating. -/
def decodeEntries : List (Option (List Char)) → Except CacheError (List (Option PyValue))
  | [] => .ok []
  | none :: t => (decodeEntries t).map (fun rest => none :: rest)
  | some b :: t =>
    match mixinLoads b with
    | .error e => .error e
    | .ok v => (decodeEntries t).map (fun rest => some v :: rest)

/-- Embedding of `Cache.get_many`: derive every key with the same version,
fetch the batch, decode positionally. -/
def cacheGetMany (cfg : CacheConfig) (st : Store) (keys : List String)
    (version : Option Version) : Except CacheError (List (Option PyValue)) :=
  decodeEntries (repoGetMany st (keys.map (fun key => makeKey cfg key version)))

/-- Embedding of `Cache.delete_pattern`: derive the pattern exactly like a
logical key, then delegate to the repository. -/
def cacheDeletePattern (cfg : CacheConfig) (st : Store) (pattern : String)
    (version : Option Version) : Store × Nat :=
  repoDeletePattern st (makeKey cfg pattern version)

/-! Encoder failure is exactly the presence of a value with no JSON
representation. -/

mutual

theorem render_none_iff : ∀ (v : PyValue), renderVal v = none ↔ hasUnsupported v = true
  | .pnull => by simp [renderVal, hasUnsupported]
  | .pbool b => by cases b <;> simp [renderVal, hasUnsupported]
  | .pint i => by simp [renderVal, hasUnsupported]
  | .pstr s => by simp [renderVal, hasUnsupported]
  | .puuid u => by simp [renderVal, hasUnsupported]
  | .pdecimal d => by simp [renderVal, hasUnsupported]
  | .plist es => by
    have h := renderItems_none_iff es
    simp [renderVal, hasUnsupported, Option.map_eq_none', h]
  | .pdict ms => by
    have h := renderPairs_none_iff ms
    simp [renderVal, hasUnsupported, Option.map_eq_none', h]

theorem renderItems_none_iff : ∀ (es : List PyValue),
    renderItems es = none ↔ hasUnsupportedL es = true
  | [] => by simp [renderItems, hasUnsupportedL]
  | e :: t => by
    have h1 := render_none_iff e
    have h2 := renderItems_none_iff t
    rw [renderItems]
    cases hre : renderVal e <;> cases hrt : renderItems t <;>
      simp_all [hasUnsupportedL]

theorem renderPairs_none_iff : ∀ (ms : List (List Char × PyValue)),
    renderPairs ms = none ↔ hasUnsupportedP ms = true
  | [] => by simp [renderPairs, hasUnsupportedP]
  | kv :: t => by
    have h1 := render_none_iff kv.2
    have h2 := renderPairs_none_iff t
    rw [renderPairs]
    cases hre : renderVal kv.2 <;> cases hrt : renderPairs t <;>
      simp_all [hasUnsupportedP]

end

theorem mixinDumps_error_eq (v : PyValue) (e : CacheError)
    (h : mixinDumps v = .error e) : e = .jsonEncodeError := by
  unfold mixinDumps at h
  cases hr : renderVal v <;> rw [hr] at h <;> simp_all

/-- C3: a value containing a type with no JSON representation makes `dumps`
raise `JsonEncodeError` — not a generic type error and not a store error —
inside the facade, before the repository can be invoked: `Cache.set` returns
this error whatever the repository would do, with no store interaction. -/
theorem dumps_unsupported_encode_error_no_repo (v : PyValue)
    (h : hasUnsupported v = true) :
    mixinDumps v = .error .jsonEncodeError
    ∧ ∀ (repoSet : String → List Char → Nat → Store → Store × Bool)
        (cfg : CacheConfig) (st : Store) (key : String) (expire : Nat)
        (ver : Option Version),
        cacheSet repoSet cfg st key v expire ver = .error .jsonEncodeError := by
  have hr : renderVal v = none := (render_none_iff v).mpr h
  refine ⟨by simp [mixinDumps, hr], ?_⟩
  intro repoSet cfg st key expire ver
  simp [cacheSet, mixinDumps, hr]

/-- Witness for C3 at the test's own failing input, an arbitrary-precision
decimal value, through a repository that would report success on any write. -/
theorem dumps_unsupported_encode_error_no_repo_witness :
    hasUnsupported (.pdecimal ['0', '.', '0', '1']) = true
    ∧ mixinDumps (.pdecimal ['0', '.', '0', '1']) = .error .jsonEncodeError
    ∧ cacheSet (fun _ _ _ st => (st, true)) {} [] "key"
        (.pdecimal ['0', '.', '0', '1']) 60 none = .error .jsonEncodeError := by
  have h := dumps_unsupported_encode_error_no_repo (.pdecimal ['0', '.', '0', '1'])
    (by rw [hasUnsupported])
  exact ⟨by rw [hasUnsupported], h.1, h.2 (fun _ _ _ st => (st, true)) {} [] "key" 60 none⟩

/-- C4: decoding a byte sequence that is not well-formed encoded JSON raises
`JsonDecodeError`, distinguished from the encode and store errors; decoding a
well-formed sequence succeeds without raising. -/
theorem loads_decode_error_iff_malformed (payload : List Char) :
    (wellFormedJson payload = false → mixinLoads payload = .error .jsonDecodeError)
    ∧ (wellFormedJson payload = true → ∃ v, mixinLoads payload = .ok v) := by
  constructor <;> intro h
  · have hn : orjsonLoads payload = none := by
      rw [wellFormedJson] at h
      exact Option.not_isSome_iff_eq_none.mp (by simp [h])
    simp [mixinLoads, hn]
  · obtain ⟨v, hv⟩ := Option.isSome_iff_exists.mp h
    exact ⟨v, by simp [mixinLoads, hv]⟩

/-- Witness for C4: the test's malformed payload `"invalid data"` raises the
decode error, and the well-formed payload `"0"` decodes successfully. -/
theorem loads_decode_error_iff_malformed_witness :
    (wellFormedJson "invalid data".toList = false
      ∧ mixinLoads "invalid data".toList = .error .jsonDecodeError)
    ∧ (wellFormedJson ['0'] = true ∧ ∃ v, mixinLoads ['0'] = .ok v) :=
  ⟨⟨by decide, (loads_decode_error_iff_malformed "invalid data".toList).1 (by decide)⟩,
   ⟨by decide, (loads_decode_error_iff_malformed ['0']).2 (by decide)⟩⟩

theorem storedAt_append_of_none : ∀ (st l : Store) (k : String),
    storedAt st k = none → storedAt (st ++ l) k = storedAt l k := by
  intro st l k
  induction st with
  | nil => intro _; rfl
  | cons e t ih =>
    intro h
    rw [storedAt] at h
    by_cases he : e.1 = k
    · rw [if_pos he] at h
      exact absurd h (by simp)
    · rw [if_neg he] at h
      rw [List.cons_append, storedAt, if_neg he]
      exact ih h

/-- C6: `set_nx` on an existing key returns `false` — not an error — and
leaves the store, hence the stored value and its expiration, unchanged; on a
missing key it stores the value with the given expiration and returns
`true`. -/
theorem setNx_existing_false_unchanged (st : Store) (k : String) (v : List Char)
    (ex : Nat) :
    (∀ p, storedAt st k = some p → repoSetNx st k v ex = (st, false))
    ∧ (storedAt st k = none →
        repoSetNx st k v ex = (st ++ [(k, (v, ex))], true)
        ∧ storedAt (repoSetNx st k v ex).1 k = some (v, ex)) := by
  constructor
  · intro p hp
    simp [repoSetNx, redisSetNx, hp]
  · intro hnone
    have h1 : repoSetNx st k v ex = (st ++ [(k, (v, ex))], true) := by
      simp [repoSetNx, redisSetNx, hnone]
    refine ⟨h1, ?_⟩
    rw [h1]
    rw [storedAt_append_of_none st _ k hnone]
    simp [storedAt]

/-- Witness for C6 on a two-call scenario: after the first `set_nx` stores
value `1`, a second `set_nx` with value `2` returns `false` and the stored
entry keeps value `1` with its original expiration. -/
theorem setNx_existing_false_unchanged_witness :
    (storedAt [] "cache:1:k" = none
      ∧ repoSetNx [] "cache:1:k" ['1'] 60 = ([("cache:1:k", (['1'], 60))], true))
    ∧ (storedAt [("cache:1:k", (['1'], 60))] "cache:1:k" = some (['1'], 60)
      ∧ repoSetNx [("cache:1:k", (['1'], 60))] "cache:1:k" ['2'] 90
          = ([("cache:1:k", (['1'], 60))], false)) :=
  ⟨⟨by decide, ((setNx_existing_false_unchanged [] "cache:1:k" ['1'] 60).2 (by decide)).1⟩,
   ⟨by decide, (setNx_existing_false_unchanged [("cache:1:k", (['1'], 60))]
      "cache:1:k" ['2'] 90).1 (['1'], 60) (by decide)⟩⟩

/-- C8: the facade's `delete_pattern` derives its argument exactly like a
logical key — prefix and version prepended, the caller's fragment appended
verbatim with its glob metacharacters unescaped — and delegates that derived
pattern to the repository's `delete_pattern`. -/
theorem facade_deletePattern_derives_key (cfg : CacheConfig) (st : Store)
    (pattern : String) (ver : Option Version) :
    cacheDeletePattern cfg st pattern ver = repoDeletePattern st (makeKey cfg pattern ver)
    ∧ makeKey cfg pattern ver
        = (cfg.keyPfx ++ ":"
            ++ versionStr (match ver with | some w => w | none => cfg.version)
            ++ ":") ++ pattern :=
  ⟨rfl, rfl⟩

theorem encodeAll_error_of (cfg : CacheConfig) (ver : Option Version) :
    ∀ (data : List (String × PyValue)),
      (∃ kv ∈ data, hasUnsupported kv.2 = true) →
      encodeAll cfg ver data = .error .jsonEncodeError := by
  intro data
  induction data with
  | nil => rintro ⟨kv, hmem, _⟩; exact absurd hmem (by simp)
  | cons hd t ih =>
    rintro ⟨kv, hmem, huns⟩
    obtain ⟨key, value⟩ := hd
    rw [encodeAll]
    rcases List.mem_cons.mp hmem with heq | htail
    · have hr : renderVal value = none := by
        rw [render_none_iff value]
        rw [heq] at huns
        exact huns
      simp [mixinDumps, hr]
    · cases hd : mixinDumps value with
      | error e =>
        rw [mixinDumps_error_eq value e hd]
      | ok b =>
        rw [ih ⟨kv, htail, huns⟩]
        rfl

theorem encodeAll_ok_of (cfg : CacheConfig) (ver : Option Version) :
    ∀ (data : List (String × PyValue)),
      (∀ kv ∈ data, hasUnsupported kv.2 = false) →
      ∃ pairs, encodeAll cfg ver data = .ok pairs
        ∧ List.Forall₂
            (fun kv p => p.1 = makeKey cfg kv.1 ver ∧ mixinDumps kv.2 = .ok p.2)
            data pairs := by
  intro data
  induction data with
  | nil => intro _; exact ⟨[], rfl, List.Forall₂.nil⟩
  | cons hd t ih =>
    intro h
    obtain ⟨key, value⟩ := hd
    have hv : hasUnsupported value = false := h (key, value) (by simp)
    obtain ⟨b, hb⟩ : ∃ b, renderVal value = some b := by
      cases hr : renderVal value with
      | none => exact absurd ((render_none_iff value).mp hr) (by simp [hv])
      | some b => exact ⟨b, rfl⟩
    obtain ⟨pairs, hp, hf⟩ := ih (fun kv hkv => h kv (List.mem_cons_of_mem _ hkv))
    refine ⟨(makeKey cfg key ver, b) :: pairs, ?_, ?_⟩
    · rw [encodeAll]
      simp [mixinDumps, hb, hp, Except.map]
    · exact List.Forall₂.cons ⟨rfl, by simp [mixinDumps, hb]⟩ hf

/-- C9: `set_many` derives every entry's key independently with the same
version and encodes every value before the single batch repository call; an
entry that cannot be encoded makes the whole call raise `JsonEncodeError`
with the repository never invoked, so no key of the batch is written. -/
theorem setMany_encode_before_batch (cfg : CacheConfig) (st : Store)
    (data : List (String × PyValue)) (expire : Nat) (ver : Option Version) :
    ((∃ kv ∈ data, hasUnsupported kv.2 = true) →
      ∀ repoSetMany, cacheSetMany repoSetMany cfg st data expire ver
        = .error .jsonEncodeError)
    ∧ ((∀ kv ∈ data, hasUnsupported kv.2 = false) →
      ∃ pairs,
        (∀ repoSetMany, cacheSetMany repoSetMany cfg st data expire ver
          = .ok (repoSetMany pairs expire st))
        ∧ List.Forall₂
            (fun kv p => p.1 = makeKey cfg kv.1 ver ∧ mixinDumps kv.2 = .ok p.2)
            data pairs) := by
  constructor
  · intro h repoSetMany
    rw [cacheSetMany, encodeAll_error_of cfg ver data h]
  · intro h
    obtain ⟨pairs, hp, hf⟩ := encodeAll_ok_of cfg ver data h
    exact ⟨pairs, fun repoSetMany => by rw [cacheSetMany, hp], hf⟩

/-- Witness for C9: a batch whose second value is an arbitrary-precision
decimal fails whole with `JsonEncodeError` for any repository behavior. -/
theorem setMany_encode_before_batch_witness :
    cacheSetMany (fun _ _ st => (st, true)) {} []
      [("a", .pnull), ("b", .pdecimal ['1'])] 60 none = .error .jsonEncodeError :=
  (setMany_encode_before_batch {} [] [("a", .pnull), ("b", .pdecimal ['1'])] 60 none).1
    ⟨("b", .pdecimal ['1']), by simp, by rw [hasUnsupported]⟩ (fun _ _ st => (st, true))

/-- The observable result of a decode: the value on success, `none` on
failure. -/
def exceptValue : Except CacheError PyValue → Option PyValue
  | .ok v => some v
  | .error _ => none

theorem decodeEntries_spec : ∀ (raws : List (Option (List Char))),
    (∀ b, some b ∈ raws → ∃ v, mixinLoads b = .ok v) →
    decodeEntries raws
      = .ok (raws.map (fun r => r.bind (fun b => exceptValue (mixinLoads b)))) := by
  intro raws
  induction raws with
  | nil => intro _; rfl
  | cons r t ih =>
    intro h
    have ht := ih (fun b hb => h b (List.mem_cons_of_mem _ hb))
    cases r with
    | none =>
      rw [decodeEntries, ht]
      rfl
    | some b =>
      obtain ⟨v, hv⟩ := h b (by simp)
      rw [decodeEntries, hv, ht]
      simp [exceptValue, hv, Except.map]

/-- C5: `get_many` returns a list of exactly the same length and order as
the input keys, where each position independently holds the decoded stored
value of the corresponding derived key, or `None` when that key holds no
value — provided every stored value it touches is well-formed JSON (a
malformed one fails the whole call instead). -/
theorem getMany_positional (cfg : CacheConfig) (st : Store) (keys : List String)
    (ver : Option Version)
    (h : ∀ k ∈ keys, ∀ b, storeGet st (makeKey cfg k ver) = some b →
      wellFormedJson b = true) :
    cacheGetMany cfg st keys ver
      = .ok (keys.map (fun k =>
          (storeGet st (makeKey cfg k ver)).bind (fun b => exceptValue (mixinLoads b))))
    ∧ (keys.map (fun k =>
        (storeGet st (makeKey cfg k ver)).bind
          (fun b => exceptValue (mixinLoads b)))).length = keys.length := by
  refine ⟨?_, by simp⟩
  rw [cacheGetMany, repoGetMany, redisMget, List.map_map]
  rw [decodeEntries_spec]
  · rw [List.map_map]
    rfl
  · intro b hb
    rw [List.mem_map] at hb
    obtain ⟨k, hk, hget⟩ := hb
    have hw := h k hk b hget
    rw [wellFormedJson] at hw
    obtain ⟨v, hv⟩ := Option.isSome_iff_exists.mp hw
    exact ⟨v, by simp [mixinLoads, hv]⟩

/-- Witness for C5 on the spec's scenario: with only `"a"` and `"b"` set,
`get_many(["a", "missing", "b"])` yields a three-element list with the middle
position absent. -/
theorem getMany_positional_witness :
    cacheGetMany {} [("cache:1:a", (['1'], 60)), ("cache:1:b", (['2'], 60))]
        ["a", "missing", "b"] none
      = .ok (["a", "missing", "b"].map (fun k =>
          (storeGet [("cache:1:a", (['1'], 60)), ("cache:1:b", (['2'], 60))]
            (makeKey {} k none)).bind (fun b => exceptValue (mixinLoads b)))) := by
  refine (getMany_positional {} _ ["a", "missing", "b"] none ?_).1
  intro k hk b hb
  have hk' : k = "a" ∨ k = "missing" ∨ k = "b" := by
    simpa using hk
  rcases hk' with rfl | rfl | rfl
  · have hval : storeGet [("cache:1:a", (['1'], 60)), ("cache:1:b", (['2'], 60))]
        (makeKey {} "a" none) = some ['1'] := by decide
    rw [hval] at hb
    cases hb
    decide
  · have hval : storeGet [("cache:1:a", (['1'], 60)), ("cache:1:b", (['2'], 60))]
        (makeKey {} "missing" none) = none := by decide
    rw [hval] at hb
    cases hb
  · have hval : storeGet [("cache:1:a", (['1'], 60)), ("cache:1:b", (['2'], 60))]
        (makeKey {} "b" none) = some ['2'] := by decide
    rw [hval] at hb
    cases hb
    decide

/-! Correctness of the scan-and-delete loop. -/

theorem delCount (st : Store) (ks : List String)
    (hst : (st.map (fun e => e.1)).Nodup) (hks : ks.Nodup)
    (hsub : ∀ k ∈ ks, k ∈ st.map (fun e => e.1)) :
    (st.filter (fun e => decide (e.1 ∈ ks))).length = ks.length := by
  have hmap : (st.filter (fun e => decide (e.1 ∈ ks))).map (fun e => e.1)
      = (st.map (fun e => e.1)).filter (fun k => decide (k ∈ ks)) := by
    rw [List.filter_map]
    rfl
  have hlen : (st.filter (fun e => decide (e.1 ∈ ks))).length
      = ((st.map (fun e => e.1)).filter (fun k => decide (k ∈ ks))).length := by
    rw [← hmap, List.length_map]
  rw [hlen]
  have hnd := hst.filter (fun k => decide (k ∈ ks))
  have hperm : ((st.map (fun e => e.1)).filter (fun k => decide (k ∈ ks))).Perm ks := by
    apply List.perm_of_nodup_nodup_toFinset_eq hnd hks
    ext x
    simp only [List.mem_toFinset, List.mem_filter, decide_eq_true_eq]
    exact ⟨fun hx => hx.2, fun hx => ⟨hsub x hx, hx⟩⟩
  exact hperm.length_eq

theorem dpLoop_spec (p : String) (snapshot : List String) (hsnap : snapshot.Nodup) :
    ∀ (fuel cursor : Nat) (st : Store) (acc : Nat),
      (st.map (fun e => e.1)).Nodup →
      (∀ k ∈ snapshot.drop cursor, globMatch p.toList k.toList = true →
        k ∈ st.map (fun e => e.1)) →
      snapshot.length + 1 ≤ fuel + cursor →
      dpLoop snapshot p fuel st cursor acc
        = (st.filter (fun e =>
            !(globMatch p.toList e.1.toList && decide (e.1 ∈ snapshot.drop cursor))),
           acc + ((snapshot.drop cursor).filter
             (fun k => globMatch p.toList k.toList)).length) := by
  intro fuel
  induction fuel with
  | zero =>
    intro cursor st acc hnd hsub hfuel
    have hdrop : snapshot.drop cursor = [] :=
      List.drop_eq_nil_of_le (by omega)
    rw [dpLoop, hdrop]
    simp
  | succ fuel ih =>
    intro cursor st acc hnd hsub hfuel
    have hsplit : (snapshot.drop cursor).take 1000 ++ (snapshot.drop cursor).drop 1000
        = snapshot.drop cursor := List.take_append_drop _ _
    have hdd : (snapshot.drop cursor).drop 1000 = snapshot.drop (cursor + 1000) := by
      rw [List.drop_drop]
    have hdropc : ∀ x, x ∈ snapshot.drop cursor
        ↔ x ∈ (snapshot.drop cursor).take 1000
          ∨ x ∈ snapshot.drop (cursor + 1000) := by
      intro x
      rw [← hdd]
      conv_lhs => rw [← hsplit]
      exact List.mem_append
    have hdisj : List.Disjoint ((snapshot.drop cursor).take 1000)
        (snapshot.drop (cursor + 1000)) := by
      rw [← hdd]
      have hnodc : ((snapshot.drop cursor).take 1000
          ++ (snapshot.drop cursor).drop 1000).Nodup := by
        rw [hsplit]
        exact (List.drop_sublist _ _).nodup hsnap
      exact (List.nodup_append.mp hnodc).2.2
    have hbatchnd : (((snapshot.drop cursor).take 1000).filter
        (fun k => globMatch p.toList k.toList)).Nodup :=
      (((List.take_sublist _ _).nodup ((List.drop_sublist _ _).nodup hsnap)).filter _)
    have hbatchsub : ∀ k ∈ ((snapshot.drop cursor).take 1000).filter
        (fun k => globMatch p.toList k.toList), k ∈ st.map (fun e => e.1) := by
      intro k hk
      rw [List.mem_filter] at hk
      exact hsub k (List.take_subset _ _ hk.1) hk.2
    have hdel : (if (((snapshot.drop cursor).take 1000).filter
          (fun k => globMatch p.toList k.toList)).isEmpty then (st, 0)
        else redisDel st (((snapshot.drop cursor).take 1000).filter
          (fun k => globMatch p.toList k.toList)))
        = (st.filter (fun e => decide (e.1 ∉ ((snapshot.drop cursor).take 1000).filter
            (fun k => globMatch p.toList k.toList))),
           (((snapshot.drop cursor).take 1000).filter
            (fun k => globMatch p.toList k.toList)).length) := by
      by_cases hb : (((snapshot.drop cursor).take 1000).filter
          (fun k => globMatch p.toList k.toList)).isEmpty
      · rw [if_pos hb]
        rw [List.isEmpty_iff] at hb
        rw [hb]
        simp
      · rw [if_neg hb, redisDel,
          delCount st _ hnd hbatchnd hbatchsub]
    rw [dpLoop]
    simp only [redisScan]
    rw [hdel]
    by_cases hcur : cursor + 1000 < snapshot.length
    · rw [if_pos hcur, if_neg (by omega)]
      have hnd' : ((st.filter (fun e => decide (e.1 ∉ ((snapshot.drop cursor).take 1000).filter
          (fun k => globMatch p.toList k.toList)))).map (fun e => e.1)).Nodup :=
        ((List.filter_sublist _).map _).nodup hnd
      have hsub' : ∀ k ∈ snapshot.drop (cursor + 1000),
          globMatch p.toList k.toList = true →
          k ∈ (st.filter (fun e => decide (e.1 ∉ ((snapshot.drop cursor).take 1000).filter
            (fun k => globMatch p.toList k.toList)))).map (fun e => e.1) := by
        intro k hk hm
        have hk0 : k ∈ st.map (fun e => e.1) :=
          hsub k ((hdropc k).mpr (Or.inr hk)) hm
        rw [List.mem_map] at hk0
        obtain ⟨e, he, hek⟩ := hk0
        rw [List.mem_map]
        refine ⟨e, ?_, hek⟩
        rw [List.mem_filter]
        refine ⟨he, ?_⟩
        rw [decide_eq_true_eq, List.mem_filter]
        rintro ⟨htake, _⟩
        exact hdisj htake (hek ▸ hk)
      rw [ih (cursor + 1000) _ _ hnd' hsub' (by omega)]
      refine Prod.ext ?_ ?_
      · show _ = st.filter _
        rw [List.filter_filter]
        apply List.filter_congr
        intro e _
        simp only [String.toList]
        by_cases hm : globMatch p.data e.1.data = true
        · by_cases ht : e.1 ∈ (snapshot.drop cursor).take 1000
          · by_cases hd : e.1 ∈ snapshot.drop (cursor + 1000)
            · exact absurd hd (hdisj ht)
            · simp [hm, ht, hd, List.mem_filter, hdropc e.1, String.toList]
          · by_cases hd : e.1 ∈ snapshot.drop (cursor + 1000)
            · simp [hm, ht, hd, List.mem_filter, hdropc e.1, String.toList]
            · simp [hm, ht, hd, List.mem_filter, hdropc e.1, String.toList]
        · rw [Bool.not_eq_true] at hm
          simp [hm, List.mem_filter, String.toList]
      · show acc + _ + _ = acc + _
        have hcount : ((snapshot.drop cursor).filter
            (fun k => globMatch p.toList k.toList)).length
            = (((snapshot.drop cursor).take 1000).filter
                (fun k => globMatch p.toList k.toList)).length
              + ((snapshot.drop (cursor + 1000)).filter
                (fun k => globMatch p.toList k.toList)).length := by
          conv_lhs => rw [← hsplit, List.filter_append, List.length_append, hdd]
        omega
    · rw [if_neg hcur, if_pos rfl]
      have htake : (snapshot.drop cursor).take 1000 = snapshot.drop cursor := by
        apply List.take_of_length_le
        rw [List.length_drop]
        omega
      refine Prod.ext ?_ ?_
      · show st.filter _ = st.filter _
        apply List.filter_congr
        intro e _
        rw [htake]
        simp only [String.toList]
        by_cases hm : globMatch p.data e.1.data = true
        · by_cases hd : e.1 ∈ snapshot.drop cursor
          · simp [hm, hd, List.mem_filter, String.toList]
          · simp [hm, hd, List.mem_filter, String.toList]
        · rw [Bool.not_eq_true] at hm
          simp [hm, List.mem_filter, String.toList]
      · show acc + _ = acc + _
        rw [htake]

/-- C7: `delete_pattern` iterates the key space with the store's cursor-based
scan in batches of `1000`, deletes each nonempty batch immediately, stops once
the cursor returns to `0`, and — on a store whose keys are distinct — removes
exactly the keys matching the glob pattern, returning their number. -/
theorem deletePattern_scan_removes_matches (st : Store) (p : String)
    (h : (st.map (fun e => e.1)).Nodup) :
    repoDeletePattern st p
      = (st.filter (fun e => !(globMatch p.toList e.1.toList)),
         (st.filter (fun e => globMatch p.toList e.1.toList)).length) := by
  rw [repoDeletePattern]
  rw [dpLoop_spec p (st.map (fun e => e.1)) h (st.map (fun e => e.1)).length.succ 0 st 0 h
    (by intro k hk _; simpa using hk) (by omega)]
  refine Prod.ext ?_ ?_
  · show st.filter _ = st.filter _
    apply List.filter_congr
    intro e he
    have hmem : e.1 ∈ st.map (fun e => e.1) := List.mem_map_of_mem _ he
    rw [List.drop_zero, decide_eq_true hmem, Bool.and_true]
  · show 0 + _ = _
    have hmap : (st.filter (fun e => globMatch p.toList e.1.toList)).map (fun e => e.1)
        = (st.map (fun e => e.1)).filter (fun k => globMatch p.toList k.toList) := by
      rw [List.filter_map]
      rfl
    have : ((st.map (fun e => e.1)).filter
        (fun k => globMatch p.toList k.toList)).length
        = (st.filter (fun e => globMatch p.toList e.1.toList)).length := by
      rw [← hmap, List.length_map]
    simp only [List.drop_zero]
    omega

/-- Witness for C7 at the spec's pattern-delete scenario: three of four keys
match `cache:1:h?llo` and are removed, the count is `3`, and the fourth key
survives. -/
theorem deletePattern_scan_removes_matches_witness :
    repoDeletePattern
        [("cache:1:hello", (['1'], 60)), ("cache:1:hallo", (['2'], 60)),
         ("cache:1:hxllo", (['3'], 60)), ("cache:1:not-a-pattern", (['4'], 60))]
        "cache:1:h?llo"
      = ([("cache:1:hello", (['1'], 60)), ("cache:1:hallo", (['2'], 60)),
          ("cache:1:hxllo", (['3'], 60)), ("cache:1:not-a-pattern", (['4'], 60))].filter
            (fun e => !(globMatch "cache:1:h?llo".toList e.1.toList)),
         ([("cache:1:hello", (['1'], 60)), ("cache:1:hallo", (['2'], 60)),
           ("cache:1:hxllo", (['3'], 60)), ("cache:1:not-a-pattern", (['4'], 60))].filter
            (fun e => globMatch "cache:1:h?llo".toList e.1.toList)).length) :=
  deletePattern_scan_removes_matches _ "cache:1:h?llo" (by decide)

/-! Codec round-trip, part 1: numbers and strings. -/

/-- True when the input cannot extend a digit run: empty, or headed by a
non-digit. -/
def headNotDigit : List Char → Bool
  | [] => true
  | c :: _ => !(isDigitCh c)

/-- True when the input can legally follow a complete JSON value: empty, or
headed by one of the three delimiters `,`, `]`, `}`. -/
def isDelim : List Char → Bool
  | [] => true
  | c :: _ => c = ',' || c = ']' || c = '}'

theorem digitCh_isDigit (d : Nat) (h : d < 10) :
    isDigitCh (Char.ofNat (48 + d)) = true := by
  interval_cases d <;> decide

theorem digitCh_val (d : Nat) (h : d < 10) :
    (Char.ofNat (48 + d)).toNat - 48 = d := by
  interval_cases d <;> decide

theorem natChars_ne_nil (n : Nat) : natChars n ≠ [] := by
  rw [natChars]
  by_cases h : n = 0
  · simp [h]
  · rw [if_neg h]
    simp [Nat.digits_ne_nil_iff_ne_zero.mpr h]

theorem natChars_digits (n : Nat) : ∀ c ∈ natChars n, isDigitCh c = true := by
  intro c hc
  rw [natChars] at hc
  by_cases h : n = 0
  · rw [if_pos h] at hc
    rw [List.mem_singleton] at hc
    subst hc
    decide
  · rw [if_neg h, List.mem_reverse, List.mem_map] at hc
    obtain ⟨d, hd, hdc⟩ := hc
    rw [← hdc]
    exact digitCh_isDigit d (Nat.digits_lt_base (by norm_num) hd)

theorem digitsVal_natChars (n : Nat) : digitsVal (natChars n) = n := by
  by_cases h : n = 0
  · subst h
    decide
  · rw [natChars, if_neg h, digitsVal, List.map_reverse, List.reverse_reverse,
      List.map_map]
    have hmap : (Nat.digits 10 n).map ((fun c => c.toNat - 48)
        ∘ (fun d => Char.ofNat (48 + d))) = (Nat.digits 10 n).map id := by
      apply List.map_congr_left
      intro d hd
      simpa using digitCh_val d (Nat.digits_lt_base (by norm_num) hd)
    rw [hmap, List.map_id]
    exact Nat.ofDigits_digits 10 n

theorem takeDigits_stop (rest : List Char) (h : headNotDigit rest = true) :
    takeDigits rest = ([], rest) := by
  cases rest with
  | nil => rfl
  | cons c t =>
    rw [headNotDigit, Bool.not_eq_true'] at h
    rw [takeDigits, if_neg (by simp [h])]

theorem takeDigits_run (ds : List Char) (hds : ∀ c ∈ ds, isDigitCh c = true)
    (rest : List Char) (hrest : headNotDigit rest = true) :
    takeDigits (ds ++ rest) = (ds, rest) := by
  induction ds with
  | nil => simpa using takeDigits_stop rest hrest
  | cons c t ih =>
    rw [List.cons_append, takeDigits, if_pos (hds c (by simp)),
      ih (fun x hx => hds x (by simp [hx]))]

theorem parseNat_natChars (n : Nat) (rest : List Char)
    (hrest : headNotDigit rest = true) :
    parseNat (natChars n ++ rest) = some (n, rest) := by
  rw [parseNat, takeDigits_run (natChars n) (natChars_digits n) rest hrest]
  have hne := natChars_ne_nil n
  cases hc : natChars n with
  | nil => exact absurd hc hne
  | cons c t =>
    have hv : digitsVal (c :: t) = n := by
      rw [← hc]
      exact digitsVal_natChars n
    simp [hv]

theorem isDelim_headNotDigit (rest : List Char) (h : isDelim rest = true) :
    headNotDigit rest = true := by
  cases rest with
  | nil => rfl
  | cons c t =>
    rw [isDelim] at h
    simp only [Bool.or_eq_true, decide_eq_true_eq] at h
    rcases h with (h | h) | h <;> subst h <;> rfl

theorem parseStrBody_esc (s : List Char) : ∀ (rest : List Char),
    parseStrBody (escBody s ++ '"' :: rest) = some (s, rest) := by
  induction s with
  | nil =>
    intro rest
    rw [escBody, List.nil_append, parseStrBody.eq_def]
    simp
  | cons c t ih =>
    intro rest
    rw [escBody, escChar]
    by_cases h1 : c = '"'
    · subst h1
      rw [if_pos rfl, List.cons_append, List.cons_append, parseStrBody.eq_def]
      simp [ih rest]
    · rw [if_neg h1]
      by_cases h2 : c = '\\'
      · subst h2
        rw [if_pos rfl, List.cons_append, List.cons_append, parseStrBody.eq_def]
        simp [ih rest]
      · rw [if_neg h2, List.cons_append, parseStrBody.eq_def]
        simp [h1, h2, ih rest]

/-! Codec round-trip, part 2: a node-count measure bounding the fuel the
decoder needs on any encoder output. -/

mutual

/-- Number of containers on the path to the deepest leaf, bounding the
parser's recursion depth and the sequence parsers' element counts. -/
def nodes : PyValue → Nat
  | .pnull => 1
  | .pbool _ => 1
  | .pint _ => 1
  | .pstr _ => 1
  | .puuid _ => 1
  | .pdecimal _ => 1
  | .plist es => 1 + nodesL es
  | .pdict ms => 1 + nodesP ms

/-- Sum of `nodes` over array elements. -/
def nodesL : List PyValue → Nat
  | [] => 0
  | e :: t => nodes e + nodesL t

/-- Sum of `nodes` over object member values. -/
def nodesP : List (List Char × PyValue) → Nat
  | [] => 0
  | kv :: t => nodes kv.2 + nodesP t

end

theorem nodes_pos (v : PyValue) : 1 ≤ nodes v := by
  cases v <;> simp [nodes]

theorem nodesL_mem : ∀ (es : List PyValue), ∀ e ∈ es, nodes e ≤ nodesL es := by
  intro es
  induction es with
  | nil => simp
  | cons x t ih =>
    intro e he
    rw [nodesL]
    rcases List.mem_cons.mp he with rfl | ht
    · omega
    · have := ih e ht
      omega

theorem length_le_nodesL : ∀ (es : List PyValue), es.length ≤ nodesL es := by
  intro es
  induction es with
  | nil => simp [nodesL]
  | cons x t ih =>
    rw [nodesL, List.length_cons]
    have := nodes_pos x
    omega

theorem nodesP_mem : ∀ (ms : List (List Char × PyValue)),
    ∀ kv ∈ ms, nodes kv.2 ≤ nodesP ms := by
  intro ms
  induction ms with
  | nil => simp
  | cons x t ih =>
    intro kv hkv
    rw [nodesP]
    rcases List.mem_cons.mp hkv with rfl | ht
    · omega
    · have := ih kv ht
      omega

theorem length_le_nodesP : ∀ (ms : List (List Char × PyValue)),
    ms.length ≤ nodesP ms := by
  intro ms
  induction ms with
  | nil => simp [nodesP]
  | cons x t ih =>
    rw [nodesP, List.length_cons]
    have := nodes_pos x.2
    omega

theorem noUuidL_mem : ∀ (es : List PyValue), noUuidL es = true →
    ∀ e ∈ es, noUuid e = true := by
  intro es
  induction es with
  | nil => simp
  | cons x t ih =>
    intro h e he
    rw [noUuidL, Bool.and_eq_true] at h
    rcases List.mem_cons.mp he with rfl | ht
    · exact h.1
    · exact ih h.2 e ht

theorem noUuidP_mem : ∀ (ms : List (List Char × PyValue)), noUuidP ms = true →
    ∀ kv ∈ ms, noUuid kv.2 = true := by
  intro ms
  induction ms with
  | nil => simp
  | cons x t ih =>
    intro h kv hkv
    rw [noUuidP, Bool.and_eq_true] at h
    rcases List.mem_cons.mp hkv with rfl | ht
    · exact h.1
    · exact ih h.2 kv ht

theorem natChars_len_pos (n : Nat) : 1 ≤ (natChars n).length :=
  List.length_pos.mpr (natChars_ne_nil n)

mutual

theorem render_len : ∀ (v : PyValue) (b : List Char),
    renderVal v = some b → nodes v ≤ b.length
  | .pnull, b, h => by
    rw [renderVal, Option.some.injEq] at h
    subst h
    simp [nodes]
  | .pbool bv, b, h => by
    cases bv <;>
      (rw [renderVal, Option.some.injEq] at h; subst h; simp [nodes])
  | .pint i, b, h => by
    rw [renderVal, Option.some.injEq] at h
    subst h
    rw [nodes, intChars, List.length_append]
    have := natChars_len_pos i.natAbs
    omega
  | .pstr s, b, h => by
    rw [renderVal, Option.some.injEq] at h
    subst h
    rw [nodes, strChars, List.length_cons]
    omega
  | .puuid u, b, h => by
    rw [renderVal, Option.some.injEq] at h
    subst h
    rw [nodes, strChars, List.length_cons]
    omega
  | .pdecimal d, b, h => by
    rw [renderVal] at h
    exact absurd h (by simp)
  | .plist es, b, h => by
    rw [renderVal, Option.map_eq_some'] at h
    obtain ⟨body, hbody, hb⟩ := h
    subst hb
    have := renderItems_len es body hbody
    rw [nodes, List.length_cons, List.length_append]
    simp only [List.length_singleton]
    omega
  | .pdict ms, b, h => by
    rw [renderVal, Option.map_eq_some'] at h
    obtain ⟨body, hbody, hb⟩ := h
    subst hb
    have := renderPairs_len ms body hbody
    rw [nodes, List.length_cons, List.length_append]
    simp only [List.length_singleton]
    omega

theorem renderItems_len : ∀ (es : List PyValue) (body : List Char),
    renderItems es = some body → nodesL es ≤ body.length + 1
  | [], body, h => by
    rw [renderItems, Option.some.injEq] at h
    subst h
    simp [nodesL]
  | e :: t, body, h => by
    rw [renderItems] at h
    cases hre : renderVal e <;> rw [hre] at h
    · exact absurd h (by simp)
    · cases hrt : renderItems t <;> rw [hrt] at h
      · exact absurd h (by simp)
      · rename_i be bt
        rw [Option.some.injEq] at h
        subst h
        have h1 := render_len e be hre
        have h2 := renderItems_len t bt hrt
        rw [nodesL]
        by_cases ht : t.isEmpty
        · rw [List.isEmpty_iff] at ht
          subst ht
          simp only [List.isEmpty_nil, if_true]
          rw [nodesL]
          omega
        · rw [if_neg ht, List.length_append, List.length_cons]
          omega

theorem renderPairs_len : ∀ (ms : List (List Char × PyValue)) (body : List Char),
    renderPairs ms = some body → nodesP ms ≤ body.length + 1
  | [], body, h => by
    rw [renderPairs, Option.some.injEq] at h
    subst h
    simp [nodesP]
  | kv :: t, body, h => by
    rw [renderPairs] at h
    cases hre : renderVal kv.2 <;> rw [hre] at h
    · exact absurd h (by simp)
    · cases hrt : renderPairs t <;> rw [hrt] at h
      · exact absurd h (by simp)
      · rename_i bv bt
        rw [Option.some.injEq] at h
        subst h
        have h1 := render_len kv.2 bv hre
        have h2 := renderPairs_len t bt hrt
        rw [nodesP]
        by_cases ht : t.isEmpty
        · rw [List.isEmpty_iff] at ht
          subst ht
          simp only [List.isEmpty_nil, if_true]
          rw [List.length_append, List.length_cons, nodesP]
          omega
        · rw [if_neg ht, List.length_append, List.length_append, List.length_cons,
            List.length_cons]
          omega

end

theorem isDigitCh_ne (c : Char) (h : isDigitCh c = true) :
    c ≠ 'n' ∧ c ≠ 't' ∧ c ≠ 'f' ∧ c ≠ '"' ∧ c ≠ '[' ∧ c ≠ '{' ∧ c ≠ '-'
    ∧ c ≠ ']' ∧ c ≠ '}' := by
  refine ⟨?_, ?_, ?_, ?_, ?_, ?_, ?_, ?_, ?_⟩ <;>
    (intro heq; rw [heq] at h; exact absurd h (by decide))

theorem render_head_spec : ∀ (v : PyValue) (b : List Char), renderVal v = some b →
    ∃ c t, b = c :: t ∧ c ≠ ']' ∧ c ≠ '}' := by
  intro v b h
  cases v with
  | pnull =>
    rw [renderVal, Option.some.injEq] at h
    exact ⟨'n', _, h.symm, by decide, by decide⟩
  | pbool bv =>
    cases bv <;> rw [renderVal, Option.some.injEq] at h
    · exact ⟨'f', _, h.symm, by decide, by decide⟩
    · exact ⟨'t', _, h.symm, by decide, by decide⟩
  | pint i =>
    rw [renderVal, Option.some.injEq] at h
    subst h
    rw [intChars]
    by_cases hi : i < 0
    · rw [if_pos hi]
      exact ⟨'-', _, rfl, by decide, by decide⟩
    · rw [if_neg hi, List.nil_append]
      cases hc : natChars i.natAbs with
      | nil => exact absurd hc (natChars_ne_nil _)
      | cons c t =>
        have hd : isDigitCh c = true := natChars_digits _ c (by rw [hc]; simp)
        obtain ⟨_, _, _, _, _, _, _, h8, h9⟩ := isDigitCh_ne c hd
        exact ⟨c, t, rfl, h8, h9⟩
  | pstr s =>
    rw [renderVal, Option.some.injEq] at h
    subst h
    exact ⟨'"', _, rfl, by decide, by decide⟩
  | puuid u =>
    rw [renderVal, Option.some.injEq] at h
    subst h
    exact ⟨'"', _, rfl, by decide, by decide⟩
  | pdecimal d =>
    rw [renderVal] at h
    exact absurd h (by simp)
  | plist es =>
    rw [renderVal, Option.map_eq_some'] at h
    obtain ⟨body, _, hb⟩ := h
    exact ⟨'[', _, hb.symm, by decide, by decide⟩
  | pdict ms =>
    rw [renderVal, Option.map_eq_some'] at h
    obtain ⟨body, _, hb⟩ := h
    exact ⟨'{', _, hb.symm, by decide, by decide⟩

theorem parseSeqItems_spec (pf : List Char → Option (PyValue × List Char)) :
    ∀ (es : List PyValue) (body : List Char), es ≠ [] → renderItems es = some body →
    (∀ e ∈ es, ∀ b, renderVal e = some b →
      ∀ rest', isDelim rest' = true → pf (b ++ rest') = some (e, rest')) →
    ∀ (fuel : Nat), es.length ≤ fuel →
    ∀ (rest : List Char), parseSeqItems pf fuel (body ++ ']' :: rest) = some (es, rest) := by
  intro es
  induction es with
  | nil => intro body hne; exact absurd rfl hne
  | cons e t ih =>
    intro body _ hbody hel fuel hfuel rest
    cases hre : renderVal e with
    | none => rw [renderItems, hre] at hbody; exact absurd hbody (by simp)
    | some be =>
      cases hrt : renderItems t with
      | none => rw [renderItems, hre, hrt] at hbody; exact absurd hbody (by simp)
      | some bt =>
        rw [renderItems, hre, hrt, Option.some.injEq] at hbody
        cases fuel with
        | zero => rw [List.length_cons] at hfuel; omega
        | succ f =>
          by_cases ht : t.isEmpty
          · rw [if_pos ht] at hbody
            subst hbody
            rw [List.isEmpty_iff] at ht
            subst ht
            have hpf := hel e (by simp) be hre (']' :: rest) rfl
            rw [parseSeqItems.eq_def]
            simp [hpf]
          · rw [if_neg ht] at hbody
            subst hbody
            have hpf := hel e (by simp) be hre (',' :: (bt ++ ']' :: rest)) rfl
            have htail : parseSeqItems pf f (bt ++ ']' :: rest) = some (t, rest) := by
              apply ih bt ?_ hrt
                (fun x hx => hel x (List.mem_cons_of_mem _ hx)) f ?_ rest
              · intro hteq
                subst hteq
                exact ht rfl
              · rw [List.length_cons] at hfuel
                omega
            rw [parseSeqItems.eq_def]
            rw [List.append_assoc, List.cons_append]
            simp [hpf, htail]

theorem parseSeqPairs_spec (pf : List Char → Option (PyValue × List Char)) :
    ∀ (ms : List (List Char × PyValue)) (body : List Char), ms ≠ [] →
    renderPairs ms = some body →
    (∀ kv ∈ ms, ∀ b, renderVal kv.2 = some b →
      ∀ rest', isDelim rest' = true → pf (b ++ rest') = some (kv.2, rest')) →
    ∀ (fuel : Nat), ms.length ≤ fuel →
    ∀ (rest : List Char), parseSeqPairs pf fuel (body ++ '}' :: rest) = some (ms, rest) := by
  intro ms
  induction ms with
  | nil => intro body hne; exact absurd rfl hne
  | cons kv t ih =>
    intro body _ hbody hel fuel hfuel rest
    cases hre : renderVal kv.2 with
    | none => rw [renderPairs, hre] at hbody; exact absurd hbody (by simp)
    | some bv =>
      cases hrt : renderPairs t with
      | none => rw [renderPairs, hre, hrt] at hbody; exact absurd hbody (by simp)
      | some bt =>
        rw [renderPairs, hre, hrt, Option.some.injEq] at hbody
        cases fuel with
        | zero => rw [List.length_cons] at hfuel; omega
        | succ f =>
          by_cases ht : t.isEmpty
          · rw [if_pos ht] at hbody
            subst hbody
            rw [List.isEmpty_iff] at ht
            subst ht
            have hpf := hel kv (by simp) bv hre ('}' :: rest) rfl
            have hkey : parseStrBody (escBody kv.1 ++ '"' :: (':' :: (bv ++ '}' :: rest)))
                = some (kv.1, ':' :: (bv ++ '}' :: rest)) := parseStrBody_esc kv.1 _
            rw [parseSeqPairs.eq_def]
            rw [strChars]
            simp only [List.cons_append, List.append_assoc, List.singleton_append]
            simp [hkey, hpf]
          · rw [if_neg ht] at hbody
            subst hbody
            have hpf := hel kv (by simp) bv hre (',' :: (bt ++ '}' :: rest)) rfl
            have hkey : parseStrBody (escBody kv.1
                  ++ '"' :: (':' :: (bv ++ ',' :: (bt ++ '}' :: rest))))
                = some (kv.1, ':' :: (bv ++ ',' :: (bt ++ '}' :: rest))) :=
              parseStrBody_esc kv.1 _
            have htail : parseSeqPairs pf f (bt ++ '}' :: rest) = some (t, rest) := by
              apply ih bt ?_ hrt
                (fun x hx => hel x (List.mem_cons_of_mem _ hx)) f ?_ rest
              · intro hteq
                subst hteq
                exact ht rfl
              · rw [List.length_cons] at hfuel
                omega
            rw [parseSeqPairs.eq_def]
            rw [strChars]
            simp only [List.cons_append, List.append_assoc, List.singleton_append]
            simp [hkey, hpf, htail]

theorem parse_render_bound : ∀ (N : Nat) (v : PyValue), nodes v ≤ N →
    ∀ (b : List Char), renderVal v = some b → noUuid v = true →
    ∀ (fuel : Nat), nodes v < fuel →
    ∀ (rest : List Char), isDelim rest = true →
    parseVal fuel (b ++ rest) = some (v, rest) := by
  intro N
  induction N with
  | zero =>
    intro v hv
    have := nodes_pos v
    omega
  | succ N ih =>
    intro v hv b hb hu fuel hfuel rest hrest
    have hpos := nodes_pos v
    cases fuel with
    | zero => omega
    | succ f =>
    cases v with
    | pnull =>
      rw [renderVal, Option.some.injEq] at hb
      subst hb
      rw [parseVal.eq_def]
      simp
    | pbool bv =>
      cases bv with
      | false =>
        rw [renderVal, Option.some.injEq] at hb
        subst hb
        rw [parseVal.eq_def]
        simp
      | true =>
        rw [renderVal, Option.some.injEq] at hb
        subst hb
        rw [parseVal.eq_def]
        simp
    | pint i =>
      rw [renderVal, Option.some.injEq] at hb
      subst hb
      rw [intChars]
      have hnum := parseNat_natChars i.natAbs rest (isDelim_headNotDigit rest hrest)
      by_cases hi : i < 0
      · rw [if_pos hi]
        rw [parseVal.eq_def]
        simp only [List.cons_append, List.nil_append, List.singleton_append]
        simp [hnum]
        rw [Int.abs_eq_natAbs]
        omega
      · rw [if_neg hi, List.nil_append]
        have hiv : (i.natAbs : Int) = i := by omega
        cases hc : natChars i.natAbs with
        | nil => exact absurd hc (natChars_ne_nil _)
        | cons c t =>
          have hd : isDigitCh c = true := natChars_digits _ c (by rw [hc]; simp)
          obtain ⟨hn1, hn2, hn3, hn4, hn5, hn6, hn7, _, _⟩ := isDigitCh_ne c hd
          rw [hc, List.cons_append] at hnum
          rw [parseVal.eq_def]
          simp only [List.cons_append]
          simp [hn1, hn2, hn3, hn4, hn5, hn6, hn7, hd]
          exact ⟨i.natAbs, hnum, hiv⟩
    | pstr s =>
      rw [renderVal, Option.some.injEq] at hb
      subst hb
      rw [strChars]
      have hkey := parseStrBody_esc s rest
      rw [parseVal.eq_def]
      simp only [List.cons_append, List.append_assoc, List.singleton_append]
      simp [hkey]
    | puuid u =>
      rw [noUuid] at hu
      exact absurd hu (by simp)
    | pdecimal d =>
      rw [renderVal] at hb
      exact absurd hb (by simp)
    | plist es =>
      rw [renderVal, Option.map_eq_some'] at hb
      obtain ⟨body, hbody, hbEq⟩ := hb
      subst hbEq
      rw [nodes] at hv hfuel
      rw [noUuid] at hu
      cases es with
      | nil =>
        rw [renderItems, Option.some.injEq] at hbody
        subst hbody
        rw [parseVal.eq_def]
        simp
      | cons e t =>
        cases hre : renderVal e with
        | none => rw [renderItems, hre] at hbody; exact absurd hbody (by simp)
        | some be =>
          cases hrt : renderItems t with
          | none => rw [renderItems, hre, hrt] at hbody; exact absurd hbody (by simp)
          | some bt =>
            obtain ⟨c0, t0, hbe, hc0r, _⟩ := render_head_spec e be hre
            have hif := hbody
            rw [renderItems, hre, hrt, Option.some.injEq] at hif
            have hbodyc : ∃ body', body = c0 :: body' := by
              by_cases ht : t.isEmpty
              · rw [if_pos ht] at hif
                exact ⟨t0, by rw [← hif, hbe]⟩
              · rw [if_neg ht] at hif
                exact ⟨t0 ++ ',' :: bt, by rw [← hif, hbe]; rfl⟩
            obtain ⟨body', hbodyc⟩ := hbodyc
            have hspec : parseSeqItems (parseVal f) f (body ++ ']' :: rest)
                = some (e :: t, rest) := by
              apply parseSeqItems_spec (parseVal f) (e :: t) body (by simp)
                hbody ?_ f ?_ rest
              · intro x hx bx hbx rest' hrest'
                have hxn := nodesL_mem (e :: t) x hx
                exact ih x (by omega) bx hbx (noUuidL_mem (e :: t) hu x hx) f
                  (by omega) rest' hrest'
              · have := length_le_nodesL (e :: t)
                omega
            rw [hbodyc] at hspec
            rw [parseVal.eq_def, hbodyc]
            simp only [List.cons_append, List.append_assoc]
            simp only [List.cons_append] at hspec
            simp [hc0r, hspec]
    | pdict ms =>
      rw [renderVal, Option.map_eq_some'] at hb
      obtain ⟨body, hbody, hbEq⟩ := hb
      subst hbEq
      rw [nodes] at hv hfuel
      rw [noUuid] at hu
      cases ms with
      | nil =>
        rw [renderPairs, Option.some.injEq] at hbody
        subst hbody
        rw [parseVal.eq_def]
        simp
      | cons kv t =>
        cases hre : renderVal kv.2 with
        | none => rw [renderPairs, hre] at hbody; exact absurd hbody (by simp)
        | some bv =>
          cases hrt : renderPairs t with
          | none => rw [renderPairs, hre, hrt] at hbody; exact absurd hbody (by simp)
          | some bt =>
            have hif := hbody
            rw [renderPairs, hre, hrt, Option.some.injEq] at hif
            have hbodyc : ∃ body', body = '"' :: body' := by
              by_cases ht : t.isEmpty
              · rw [if_pos ht] at hif
                exact ⟨(escBody kv.1 ++ ['"']) ++ ':' :: bv, by rw [← hif, strChars]; rfl⟩
              · rw [if_neg ht] at hif
                exact ⟨(escBody kv.1 ++ ['"']) ++ ':' :: bv ++ ',' :: bt,
                  by rw [← hif, strChars]; rfl⟩
            obtain ⟨body', hbodyc⟩ := hbodyc
            have hspec : parseSeqPairs (parseVal f) f (body ++ '}' :: rest)
                = some (kv :: t, rest) := by
              apply parseSeqPairs_spec (parseVal f) (kv :: t) body (by simp)
                hbody ?_ f ?_ rest
              · intro x hx bx hbx rest' hrest'
                have hxn := nodesP_mem (kv :: t) x hx
                exact ih x.2 (by omega) bx hbx (noUuidP_mem (kv :: t) hu x hx) f
                  (by omega) rest' hrest'
              · have := length_le_nodesP (kv :: t)
                omega
            rw [hbodyc] at hspec
            rw [parseVal.eq_def, hbodyc]
            simp only [List.cons_append, List.append_assoc]
            simp only [List.cons_append] at hspec
            simp [hspec]

/-- C2: codec round-trip — for every JSON-representable value containing no
UUID, decoding the bytes produced by encoding it yields the value back:
`loads(dumps(x)) == x`. -/
theorem loads_dumps_roundtrip (v : PyValue) (h1 : noUuid v = true)
    (h2 : hasUnsupported v = false) :
    ∃ b, mixinDumps v = .ok b ∧ mixinLoads b = .ok v := by
  obtain ⟨b, hb⟩ : ∃ b, renderVal v = some b := by
    cases hr : renderVal v with
    | none => exact absurd ((render_none_iff v).mp hr) (by simp [h2])
    | some b => exact ⟨b, rfl⟩
  have hlen := render_len v b hb
  have hparse := parse_render_bound (nodes v) v le_rfl b hb h1 (b.length + 1)
    (by omega) [] rfl
  rw [List.append_nil] at hparse
  refine ⟨b, by simp [mixinDumps, hb], ?_⟩
  simp [mixinLoads, orjsonLoads, hparse]

/-- Witness for C2 at the test's own payload `{"key": "value"}` (modulo the
character-list embedding of strings). -/
theorem loads_dumps_roundtrip_witness :
    noUuid (PyValue.pdict [(['k'], .pstr ['v'])]) = true
    ∧ hasUnsupported (PyValue.pdict [(['k'], .pstr ['v'])]) = false
    ∧ ∃ b, mixinDumps (PyValue.pdict [(['k'], .pstr ['v'])]) = .ok b
        ∧ mixinLoads b = .ok (PyValue.pdict [(['k'], .pstr ['v'])]) := by
  have h1 : noUuid (PyValue.pdict [(['k'], .pstr ['v'])]) = true := by
    simp [noUuid, noUuidP]
  have h2 : hasUnsupported (PyValue.pdict [(['k'], .pstr ['v'])]) = false := by
    simp [hasUnsupported, hasUnsupportedP]
  exact ⟨h1, h2, loads_dumps_roundtrip _ h1 h2⟩

end Impcache
